import Mathlib

/-!
Verification of the OFX statement parser (`main.go` of daniellawrence/ofx2json).

The Go source is shallowly embedded below:

* `Decimal` (Go `type Decimal int64`) is embedded as `Int`; the int64 width is
  never exercised by the statement values considered here, so no `% 2^64`
  wrapping is modelled.
* Go's float64 intermediates (`strconv.ParseFloat`, `x * 100`, `float64(d)/100`,
  `fmt.Sprintf "%.2f"`) are embedded exactly over `ℚ` by `roundDouble`, which
  rounds a rational to the nearest IEEE-754 binary64 value (round to nearest,
  ties to even, 53-bit significand).  The model covers the magnitude range
  (2^-340, 2^60) of finite normal doubles; overflow to infinity and the
  subnormal range, which no statement amount reaches, are outside the model.
* The `xml.Decoder` token source is embedded as a list of tokens; the Go loop
  stops at the first decoder error (EOF or not), which corresponds to the end
  of the list.
* Go runtime panics that `Parse` can actually trigger (nil-pointer dereference
  of the current-transaction holder, slice index-out-of-range on the 1000-slot
  path stack) are embedded as the explicit `crash` outcome.
-/

/-- Calendar date, the observable content of Go's `time.Time` as used here
(`time.Parse("20060102", s)` retains year/month/day). -/
structure Date where
  y : Nat
  m : Nat
  d : Nat
deriving DecidableEq

/-- The zero `time.Time` value, which prints as 0001-01-01. -/
def timeZero : Date := ⟨1, 1, 1⟩

/-- Go `type Decimal int64` (src/main.go:16): hundredths of the currency unit. -/
abbrev Decimal := Int

/-- Round half to even: the integer nearest to `q`, ties going to the even
integer.  This is the rounding used both by IEEE-754 binary64 operations and
by Go's `%.2f` formatting of the third decimal digit. -/
def roundHalfEven (q : ℚ) : ℤ :=
  if q - ⌊q⌋ < 1/2 then ⌊q⌋
  else if 1/2 < q - ⌊q⌋ then ⌊q⌋ + 1
  else if ⌊q⌋ % 2 = 0 then ⌊q⌋ else ⌊q⌋ + 1

/-- `expOfAux fuel a e` scans `e, e-1, e-2, ...` for the first exponent with
`2^e ≤ a` (binary exponent search used by the binary64 model). -/
def expOfAux : Nat → ℚ → ℤ → ℤ
  | 0, _, e => e
  | f + 1, a, e => if (2:ℚ)^e ≤ a then e else expOfAux f a (e - 1)

/-- Binary exponent of a positive rational `a`: the `e` with `2^e ≤ a < 2^(e+1)`,
found by downward scan from 60 (values of this program are below 2^60; the scan
bottoms out at 60 - 400 = -340, below any value arising here). -/
def expOf (a : ℚ) : ℤ := expOfAux 400 a 60

/-- The IEEE-754 binary64 value nearest to `x` (round to nearest, ties to even),
as an exact rational: the significand is `x` scaled to `[2^52, 2^53)` and
rounded half-to-even.  Models Go float64 results of `ParseFloat`, `*`, `/`. -/
def roundDouble (x : ℚ) : ℚ :=
  if x = 0 then 0
  else
    (if x < 0 then (-1:ℚ) else 1) *
      ((roundHalfEven (|x| / 2^(expOf |x| - 52)) : ℤ) : ℚ) * 2^(expOf |x| - 52)

/-- Truncation toward zero, Go's `int64(x)` conversion from float64. -/
def truncQ (q : ℚ) : ℤ := if 0 ≤ q then ⌊q⌋ else ⌈q⌉

/-- Character-class of Go's `unicode.IsSpace` on the ASCII range (the only
whitespace this format produces): space, \t, \n, \v, \f, \r. -/
def isSpaceGo (c : Char) : Bool :=
  c = ' ' || c = '\t' || c = '\n' || c = Char.ofNat 11 || c = Char.ofNat 12 || c = '\r'

/-- Go `strings.TrimSpace`: drop leading and trailing whitespace. -/
def trimGo (l : List Char) : List Char :=
  ((l.dropWhile isSpaceGo).reverse.dropWhile isSpaceGo).reverse

/-- Numeric value of a digit string (most significant first). -/
def natOfDigits (l : List Char) : Nat :=
  l.foldl (fun acc c => 10 * acc + (c.toNat - 48)) 0

/-- Go `strconv.ParseFloat` restricted to the plain decimal grammar
`[+-]? digits [. digits]` that statement amounts use (exponents, hex floats,
inf/nan and digit underscores are outside the modelled fragment): the exact
rational value on success, `none` on a syntax error (Go then returns 0 with an
error, which `NewDecial` ignores). -/
def parseGoFloat (s : List Char) : Option ℚ :=
  let (neg, rest) :=
    match s with
    | '-' :: r => (true, r)
    | '+' :: r => (false, r)
    | r => (false, r)
  let ip := rest.takeWhile Char.isDigit
  let rest2 := rest.dropWhile Char.isDigit
  let sgn : ℚ := if neg then -1 else 1
  match rest2 with
  | [] => if ip.isEmpty then none else some (sgn * (natOfDigits ip : ℚ))
  | '.' :: fr =>
      if fr.all Char.isDigit ∧ ¬ (ip.isEmpty ∧ fr.isEmpty) then
        some (sgn * ((natOfDigits ip : ℚ) + (natOfDigits fr : ℚ) / 10 ^ fr.length))
      else none
  | _ => none

/-- Go `NewDecial` (src/main.go:36-40): `ParseFloat` (0 on error), multiply by
100 as float64, truncate to int64. -/
def NewDecial (s : List Char) : Decimal :=
  match parseGoFloat s with
  | none => 0
  | some q => truncQ (roundDouble (roundDouble q * 100))

/-- Shared digit rendering `n.dd` of a magnitude in hundredths. -/
def renderMag (n : Nat) : String :=
  toString (n / 100) ++ "." ++ (if n % 100 < 10 then "0" ++ toString (n % 100) else toString (n % 100))

/-- Go `fmt.Sprintf("%.2f", v)` for a float64 of exact value `v`: sign of the
value, then the magnitude rounded at the second decimal (ties to even). -/
def fmtF2 (v : ℚ) : String :=
  (if v < 0 then "-" else "") ++ renderMag (roundHalfEven (v * 100)).natAbs

/-- Go `Decimal.String` (src/main.go:24-28): `float64(d) / 100` formatted with
`%.2f`. -/
def Decimal.String (d : Decimal) : String :=
  fmtF2 (roundDouble (roundDouble (d : ℚ) / 100))

/-- Leap year rule of the proleptic Gregorian calendar (Go `time`). -/
def isLeap (y : Nat) : Bool := (y % 4 = 0 && y % 100 ≠ 0) || y % 400 = 0

/-- Days in a month, per Go `time`'s date validation. -/
def daysInMonth (y m : Nat) : Nat :=
  if m = 2 then (if isLeap y then 29 else 28)
  else if m = 4 ∨ m = 6 ∨ m = 9 ∨ m = 11 then 30
  else 31

/-- Go `time.Parse("20060102", s)`: exactly 8 digits, month 1-12, day valid for
the month; the parsed calendar date on success. -/
def parseYYYYMMDD (l : List Char) : Option Date :=
  if l.length = 8 ∧ l.all Char.isDigit then
    let y := natOfDigits (l.take 4)
    let m := natOfDigits ((l.drop 4).take 2)
    let d := natOfDigits (l.drop 6)
    if 1 ≤ m ∧ m ≤ 12 ∧ 1 ≤ d ∧ d ≤ daysInMonth y m then some ⟨y, m, d⟩ else none
  else none

/-- Go `OfxTransaction` (src/main.go:47-54); field defaults are the Go zero
values.  `Ttype` embeds the Go field `Type` (a Lean keyword). -/
structure OfxTransaction where
  FitID : String := ""
  Ttype : String := ""
  PostedDateTime : Date := timeZero
  UserDateTime : Date := timeZero
  Amount : Decimal := 0
  Memo : String := ""
deriving DecidableEq

/-- Go `Ofx` (src/main.go:62-74).  `Transactions` holds `*OfxTransaction`
pointers, which may be nil, hence `Option`. -/
structure Ofx where
  GeneratedDateTime : Date := timeZero
  Language : String := ""
  AccountBankNumber : String := ""
  AccountNumber : String := ""
  AccountType : String := ""
  Currency : String := ""
  LedgerBalance : Decimal := 0
  AvailiableBalance : Decimal := 0
  TransactionStartDateTime : Date := timeZero
  TrnasactionEndDateTime : Date := timeZero
  Transactions : List (Option OfxTransaction) := []
deriving DecidableEq

/-- The `Ofx` record `Parse` starts from (src/main.go:111). -/
def initOfx : Ofx := {}

/-- Go `nextKey` (src/main.go:90-108): the single-slot pending-field marker. -/
inductive nextKey where
  | none | acctID | acctType | curDef | branchID | bankID
  | transAmount | transDatePosted | transUserDate | transFitID
  | transDesc | transMemo | transType | legerBal | AvailBal
deriving DecidableEq

/-- The arm of the start-element switch (src/main.go:127-168) that assigns the
pending-field marker: `some k` when the tag name has a `next = k` case, `none`
when it has no case touching `next` (including `STMTTRN`, whose case allocates
a transaction instead). -/
def armKey (name : String) : Option nextKey :=
  match name with
  | "ACCTID" => some .acctID
  | "BRANCHID" => some .branchID
  | "BANKID" => some .bankID
  | "ACCTTYPE" => some .acctType
  | "CURDEF" => some .curDef
  | "DTPOSTED" => some .transDatePosted
  | "FITID" => some .transFitID
  | "TRNAMT" => some .transAmount
  | "NAME" => some .transDesc
  | "MEMO" => some .transMemo
  | "TRNTYPE" => some .transType
  | "LEDGERBAL" => some .legerBal
  | "AVAILBAL" => some .AvailBal
  | _ => none

/-- Error results of Go `Parse`: the `fmt.Errorf` for short posted-date text
(src/main.go:204) and the `time.Parse` error for an invalid date
(src/main.go:208-209). -/
inductive ParseError where
  | shortDate (res : String)
  | badDate (res : String)
deriving DecidableEq

/-- Go runtime panics reachable in `Parse`: writing past the 1000-entry stack
slice, and storing a field through the nil `trans` pointer. -/
inductive CrashKind where
  | stackOverflow
  | nilDeref
deriving DecidableEq

/-- Parser state of the Go `Parse` loop locals (src/main.go:111-116):
`stack`/`stackPos` (top of stack = head), `next`, `trans`, and the record
being assembled. -/
structure PState where
  stack : List String
  next : nextKey
  trans : Option OfxTransaction
  ofx : Ofx
deriving DecidableEq

/-- Result of one dispatch step. -/
inductive StepRes where
  | ok (s : PState)
  | err (e : ParseError)
  | crash (k : CrashKind)
deriving DecidableEq

/-- Start-element handling (src/main.go:123-168): bounds-checked push onto the
1000-slot stack (`stack[stackPos] = ...` panics when `stackPos` reaches the
slice length), fresh transaction on `STMTTRN`, pending-marker assignment per
the switch. -/
def stepStart (name : String) (s : PState) : StepRes :=
  if 1000 ≤ s.stack.length then .crash .stackOverflow
  else
    let st := { s with stack := name :: s.stack }
    let st := if name = "STMTTRN" then { st with trans := some {} } else st
    match armKey name with
    | some k => .ok { st with next := k }
    | none => .ok st

/-- Character-data handling (src/main.go:170-226): trim the text (Go binds
`res := strings.TrimSpace(...)` once; it is inlined here), store it into
the field selected by `next` (converting per type), then clear `next`.  Field
stores into the current transaction dereference the possibly-nil `trans`
pointer.  The posted-date branch errors before any dereference when the
trimmed text is shorter than 8 bytes or its 8-byte prefix is not a valid date. -/
def stepChar (txt : List Char) (s : PState) : StepRes :=
  match s.next with
  | .acctID => .ok { s with ofx := { s.ofx with AccountNumber := String.mk (trimGo txt) }, next := .none }
  | .bankID => .ok { s with ofx := { s.ofx with AccountBankNumber := String.mk (trimGo txt) }, next := .none }
  | .branchID => .ok { s with next := .none }
  | .transDesc =>
      match s.trans with
      | none => .crash .nilDeref
      | some tr => .ok { s with trans := some { tr with Memo := String.mk (trimGo txt) }, next := .none }
  | .transMemo =>
      match s.trans with
      | none => .crash .nilDeref
      | some tr => .ok { s with trans := some { tr with Memo := String.mk (trimGo txt) }, next := .none }
  | .transFitID =>
      match s.trans with
      | none => .crash .nilDeref
      | some tr => .ok { s with trans := some { tr with FitID := String.mk (trimGo txt) }, next := .none }
  | .curDef => .ok { s with ofx := { s.ofx with Currency := String.mk (trimGo txt) }, next := .none }
  | .acctType => .ok { s with ofx := { s.ofx with AccountType := String.mk (trimGo txt) }, next := .none }
  | .transDatePosted =>
      if (trimGo txt).length < 8 then .err (.shortDate (String.mk (trimGo txt)))
      else
        match parseYYYYMMDD ((trimGo txt).take 8) with
        | none => .err (.badDate (String.mk ((trimGo txt).take 8)))
        | some D =>
            match s.trans with
            | none => .crash .nilDeref
            | some tr => .ok { s with trans := some { tr with PostedDateTime := D }, next := .none }
  | .transAmount =>
      match s.trans with
      | none => .crash .nilDeref
      | some tr => .ok { s with trans := some { tr with Amount := NewDecial (trimGo txt) }, next := .none }
  | .transType =>
      match s.trans with
      | none => .crash .nilDeref
      | some tr => .ok { s with trans := some { tr with Ttype := String.mk (trimGo txt) }, next := .none }
  | .legerBal => .ok { s with ofx := { s.ofx with LedgerBalance := NewDecial (trimGo txt) }, next := .none }
  | .AvailBal => .ok { s with ofx := { s.ofx with AvailiableBalance := NewDecial (trimGo txt) }, next := .none }
  | .transUserDate => .ok { s with next := .none }
  | .none => .ok { s with next := .none }

/-- End-element unwind loop (src/main.go:228-240): pop until the end-tag's name
is popped or the stack empties; on each pass whose top is `STMTTRN`, append the
current transaction pointer (possibly nil) to the list and clear the holder. -/
def unwind (name : String) :
    List String → Option OfxTransaction → List (Option OfxTransaction) →
    List String × Option OfxTransaction × List (Option OfxTransaction)
  | [], tr, acc => ([], tr, acc)
  | top :: rest, tr, acc =>
      if top = "STMTTRN" then
        (if top = name then (rest, none, acc ++ [tr]) else unwind name rest none (acc ++ [tr]))
      else
        (if top = name then (rest, tr, acc) else unwind name rest tr acc)

/-- Markup events of `xml.Decoder.RawToken` as consumed by `Parse`:
start-element, character data, end-element, and the logged-and-ignored default
case (comments, directives, ...). -/
inductive Tok where
  | start (name : String)
  | chardata (txt : List Char)
  | endEl (name : String)
  | other
deriving DecidableEq

/-- Overall result of `Parse`: the record, a returned error, or a runtime
panic. -/
inductive PResult where
  | ok (o : Ofx)
  | err (e : ParseError)
  | crash (k : CrashKind)
deriving DecidableEq

/-- The token loop of `Parse` (src/main.go:120-253): dispatch each token, stop
with the assembled record when the token source is exhausted (any decoder
error, EOF included, ends the loop and `Parse` returns `ofx, nil`). -/
def run : List Tok → PState → PResult
  | [], s => .ok s.ofx
  | t :: ts, s =>
      match t with
      | .start n =>
          match stepStart n s with
          | .ok s' => run ts s'
          | .err e => .err e
          | .crash k => .crash k
      | .chardata txt =>
          match stepChar txt s with
          | .ok s' => run ts s'
          | .err e => .err e
          | .crash k => .crash k
      | .endEl n =>
          let u := unwind n s.stack s.trans s.ofx.Transactions
          run ts { s with stack := u.1, trans := u.2.1, ofx := { s.ofx with Transactions := u.2.2 } }
      | .other => run ts s

/-- Go `Parse` (src/main.go:110-255) on a token stream. -/
def Parse (toks : List Tok) : PResult :=
  run toks ⟨[], .none, none, initOfx⟩

/-- Modelled from the spec (§4.2 step d, the claim's own words): pop the stack
from the top until an entry equal to the end-tag's name is popped, or the
stack empties. -/
def specPopUntil (name : String) : List String → List String
  | [] => []
  | top :: rest => if top = name then rest else specPopUntil name rest

/-- Modelled from the spec (§8, C2's words): a parsed amount "normalized to
exactly 2 fractional digits and a leading sign if negative", where `k` is the
amount in hundredths. -/
def renderCents (k : ℤ) : String :=
  (if k < 0 then "-" else "") ++ renderMag k.natAbs

/-- Pending-field markers that some tag actually arms (the image of the
dispatch table), plus the idle marker: every key except `transUserDate`. -/
def armableKeys : List nextKey :=
  [.none, .acctID, .acctType, .curDef, .branchID, .bankID, .transAmount,
   .transDatePosted, .transFitID, .transDesc, .transMemo, .transType,
   .legerBal, .AvailBal]

/-! ### Helper lemmas -/

lemma digit_not_space {c : Char} (h : c.isDigit = true) : isSpaceGo c = false := by
  by_contra hne
  have hs : isSpaceGo c = true := by revert hne; cases isSpaceGo c <;> simp
  unfold isSpaceGo at hs
  simp only [Bool.or_eq_true, decide_eq_true_eq] at hs
  rcases hs with ((((h1 | h1) | h1) | h1) | h1) | h1 <;> subst h1 <;> exact absurd h (by decide)

lemma trimGo_length_le (l : List Char) : (trimGo l).length ≤ l.length := by
  unfold trimGo
  rw [List.length_reverse]
  calc ((l.dropWhile isSpaceGo).reverse.dropWhile isSpaceGo).length
      ≤ (l.dropWhile isSpaceGo).reverse.length :=
        (List.dropWhile_sublist _).length_le
    _ = (l.dropWhile isSpaceGo).length := List.length_reverse _
    _ ≤ l.length := (List.dropWhile_sublist _).length_le

lemma trimGo_front (l : List Char) (k : ℕ) (hk1 : 1 ≤ k) (hkl : k ≤ l.length)
    (hpref : ∀ c ∈ l.take k, isSpaceGo c = false) :
    k ≤ (trimGo l).length ∧ (trimGo l).take k = l.take k := by
  have hd : l.dropWhile isSpaceGo = l := by
    cases l with
    | nil => rfl
    | cons c t =>
        have hc : isSpaceGo c = false := by
          apply hpref
          obtain ⟨k', rfl⟩ : ∃ k', k = k' + 1 := ⟨k - 1, by omega⟩
          rw [List.take_succ_cons]
          exact List.mem_cons_self _ _
        rw [List.dropWhile_cons, hc]
        simp
  set r := l.reverse.dropWhile isSpaceGo with hrdef
  have hsplit : l.reverse.takeWhile isSpaceGo ++ r = l.reverse :=
    List.takeWhile_append_dropWhile _ _
  have hl : l = r.reverse ++ (l.reverse.takeWhile isSpaceGo).reverse := by
    have h2 := congrArg List.reverse hsplit
    rw [List.reverse_append, List.reverse_reverse] at h2
    exact h2.symm
  have htrim : trimGo l = r.reverse := by unfold trimGo; rw [hd]
  have hwsp : ∀ c ∈ (l.reverse.takeWhile isSpaceGo).reverse, isSpaceGo c = true := by
    intro c hc
    rw [List.mem_reverse] at hc
    exact List.mem_takeWhile_imp hc
  have hrlen : k ≤ r.reverse.length := by
    by_contra hlt
    push_neg at hlt
    have htk : l.take k =
        r.reverse ++ ((l.reverse.takeWhile isSpaceGo).reverse.take (k - r.reverse.length)) := by
      conv_lhs => rw [hl]
      rw [List.take_append_eq_append_take, List.take_of_length_le (le_of_lt hlt)]
    have hlenl : l.length = r.reverse.length + (l.reverse.takeWhile isSpaceGo).reverse.length := by
      conv_lhs => rw [hl]
      rw [List.length_append]
    have hlen2 : 0 < ((l.reverse.takeWhile isSpaceGo).reverse.take (k - r.reverse.length)).length := by
      rw [List.length_take]
      omega
    obtain ⟨c, hc⟩ := List.exists_mem_of_ne_nil
      ((l.reverse.takeWhile isSpaceGo).reverse.take (k - r.reverse.length))
      (by intro hnil; rw [hnil] at hlen2; simp at hlen2)
    have hcw : isSpaceGo c = true := hwsp c (List.mem_of_mem_take hc)
    have hck : c ∈ l.take k := by rw [htk]; exact List.mem_append_right _ hc
    rw [hpref c hck] at hcw
    exact Bool.false_ne_true hcw
  refine ⟨by rw [htrim]; exact hrlen, ?_⟩
  rw [htrim]
  conv_rhs => rw [hl]
  rw [List.take_append_eq_append_take, Nat.sub_eq_zero_of_le hrlen]
  simp

lemma stepStart_ofx {n : String} {s s' : PState} (h : stepStart n s = .ok s') :
    s'.ofx = s.ofx := by
  unfold stepStart at h
  split at h
  · exact absurd h (by simp)
  · split at h <;> split at h <;>
      (simp only [StepRes.ok.injEq] at h; subst h; rfl)

lemma stepChar_frame {txt : List Char} {s s' : PState} (h : stepChar txt s = .ok s') :
    s'.ofx.GeneratedDateTime = s.ofx.GeneratedDateTime ∧
    s'.ofx.Language = s.ofx.Language ∧
    s'.ofx.TransactionStartDateTime = s.ofx.TransactionStartDateTime ∧
    s'.ofx.TrnasactionEndDateTime = s.ofx.TrnasactionEndDateTime := by
  unfold stepChar at h
  repeat' split at h
  all_goals
    first
    | (injection h with h2; subst h2; exact ⟨rfl, rfl, rfl, rfl⟩)
    | injection h

lemma run_frame : ∀ (ts : List Tok) (s : PState) (o : Ofx), run ts s = .ok o →
    o.GeneratedDateTime = s.ofx.GeneratedDateTime ∧
    o.Language = s.ofx.Language ∧
    o.TransactionStartDateTime = s.ofx.TransactionStartDateTime ∧
    o.TrnasactionEndDateTime = s.ofx.TrnasactionEndDateTime := by
  intro ts
  induction ts with
  | nil =>
      intro s o h
      simp only [run, PResult.ok.injEq] at h
      subst h
      exact ⟨rfl, rfl, rfl, rfl⟩
  | cons t ts ih =>
      intro s o h
      cases t with
      | start n =>
          simp only [run] at h
          cases hs : stepStart n s with
          | ok s1 =>
              rw [hs] at h
              have h1 := ih s1 o h
              have h2 := stepStart_ofx hs
              rw [h2] at h1
              exact h1
          | err e => rw [hs] at h; exact absurd h (by simp)
          | crash k => rw [hs] at h; exact absurd h (by simp)
      | chardata txt =>
          simp only [run] at h
          cases hs : stepChar txt s with
          | ok s1 =>
              rw [hs] at h
              have h1 := ih s1 o h
              obtain ⟨e1, e2, e3, e4⟩ := stepChar_frame hs
              rw [e1, e2, e3, e4] at h1
              exact h1
          | err e => rw [hs] at h; exact absurd h (by simp)
          | crash k => rw [hs] at h; exact absurd h (by simp)
      | endEl n =>
          simp only [run] at h
          have h5 := ih _ o h
          exact h5
      | other =>
          simp only [run] at h
          have h5 := ih _ o h
          exact h5

/-! ### Claim theorems -/

/-- C1: For every end-of-element event, the parser pops the open-element path
stack from the top until an entry equal to the end-tag's name is popped (or the
stack empties), and on each pass where the top entry is the transaction marker
it appends the current transaction to the statement's transaction list and
clears the current-transaction holder; in particular, for a document with one
transaction block containing an FITID tag whose closing tag is omitted (its
text immediately followed by the next sibling's start tag) and eventually the
transaction's own end tag, the resulting transaction list has exactly one entry
and that entry carries the FitID text. -/
theorem c1_end_tag_unwind :
    (∀ (n : String) (st : List String) (tr : Option OfxTransaction)
        (acc : List (Option OfxTransaction)),
      (unwind n st tr acc).1 = specPopUntil n st) ∧
    (∀ (n top : String) (rest : List String) (tr : Option OfxTransaction)
        (acc : List (Option OfxTransaction)),
      unwind n (top :: rest) tr acc =
        if top = "STMTTRN" then
          (if top = n then (rest, none, acc ++ [tr]) else unwind n rest none (acc ++ [tr]))
        else
          (if top = n then (rest, tr, acc) else unwind n rest tr acc)) ∧
    Parse [.start "STMTTRN", .start "FITID", .chardata "12345".toList, .start "NAME",
           .chardata "desc".toList, .endEl "STMTTRN"] =
      .ok { Transactions := [some { FitID := "12345", Memo := "desc" }] } := by
  refine ⟨?_, ?_, by decide⟩
  · intro n st
    induction st with
    | nil => intro tr acc; rfl
    | cons top rest ih =>
        intro tr acc
        simp only [unwind, specPopUntil]
        split
        · split
          · rfl
          · exact ih none (acc ++ [tr])
        · split
          · rfl
          · exact ih tr acc
  · intro n top rest tr acc
    rfl

/-- C5: If the end of the token stream is reached while a transaction block is
still open (its end tag never observed), that in-progress transaction is
absent from the returned statement's transaction list (no flush-on-EOF), and
Parse still returns the assembled record normally with all transactions that
were fully resolved. -/
theorem c5_no_flush_on_eof :
    (∀ s : PState, run [] s = .ok s.ofx) ∧
    Parse [.start "STMTTRN", .start "FITID", .chardata "F1".toList, .endEl "STMTTRN",
           .start "STMTTRN", .start "FITID", .chardata "F2".toList] =
      .ok { Transactions := [some { FitID := "F1" }] } :=
  ⟨fun _ => rfl, by decide⟩

/-- C6: After every character-data event the pending-field marker is reset to
"none", so a second character-data event arriving before the next start or end
tag changes no field of the statement or current transaction: every output
field is populated only from the first text chunk following the start tag that
armed it. -/
theorem c6_first_chunk_only :
    (∀ (txt : List Char) (s s' : PState), stepChar txt s = .ok s' → s'.next = nextKey.none) ∧
    (∀ (txt : List Char) (s : PState), s.next = nextKey.none → stepChar txt s = .ok s) := by
  constructor
  · intro txt s s' h
    unfold stepChar at h
    repeat' split at h
    all_goals
      first
      | (injection h with h2; subst h2; rfl)
      | injection h
  · intro txt s hn
    obtain ⟨st, nx, tr, ox⟩ := s
    simp only at hn
    subst hn
    rfl

/-- C6 witness: the marker is `none` right after a chunk is consumed, and a
chunk arriving with the marker already `none` leaves the state unchanged. -/
theorem c6_first_chunk_only_witness :
    (⟨["CURDEF"], nextKey.none, none, { Currency := "ZZ" }⟩ : PState).next = nextKey.none ∧
    stepChar "Q".toList ⟨[], nextKey.none, none, initOfx⟩ = .ok ⟨[], nextKey.none, none, initOfx⟩ :=
  ⟨c6_first_chunk_only.1 "ZZ".toList ⟨["CURDEF"], nextKey.curDef, none, initOfx⟩ _ (by decide),
   c6_first_chunk_only.2 "Q".toList ⟨[], nextKey.none, none, initOfx⟩ rfl⟩

set_option maxRecDepth 100000 in
/-- C7 counterexample: the 1001st nested start-of-element event does not make
`Parse` fail fast through an explicit capacity check returning an error: it
aborts with the runtime out-of-range panic of `stack[stackPos] = ...`
(`make([]string, 1000)` has no explicit guard in `Parse`), while 1000 nested
start tags are still absorbed normally. -/
theorem c7_counterexample :
    Parse (List.replicate 1001 (Tok.start "X")) = .crash .stackOverflow ∧
    Parse (List.replicate 1000 (Tok.start "X")) = .ok initOfx := by decide

/-- C7 amended: the open-element path stack has the fixed capacity 1000, and a
start-of-element event arriving with the stack full aborts the parse by the
runtime bounds-check panic (modelled as the `stackOverflow` crash outcome) —
it does not overflow silently, but there is no explicit check returning an
error either. -/
theorem c7_overflow_amended :
    ∀ (name : String) (s : PState), 1000 ≤ s.stack.length →
      stepStart name s = .crash .stackOverflow := by
  intro name s h
  unfold stepStart
  rw [if_pos h]

/-- C7 witness: a full stack makes the next push crash. -/
theorem c7_overflow_witness :
    stepStart "X" ⟨List.replicate 1000 "A", nextKey.none, none, initOfx⟩ =
      .crash .stackOverflow :=
  c7_overflow_amended "X" _ (by rw [List.length_replicate])

/-- C8 counterexample: the user-date tag (`DTUSER` in this format) arms
nothing: its start event leaves the pending marker untouched, the following
character data is dropped, and the transaction's user-date field keeps its
zero value in the parse result. -/
theorem c8_counterexample :
    Parse [.start "STMTTRN", .start "DTUSER", .chardata "20200101".toList, .endEl "STMTTRN"] =
      .ok { Transactions := [some {}] } ∧
    ({} : OfxTransaction).UserDateTime = timeZero ∧
    stepStart "DTUSER" ⟨["STMTTRN"], nextKey.none, some {}, initOfx⟩ =
      .ok ⟨["DTUSER", "STMTTRN"], nextKey.none, some {}, initOfx⟩ := by decide

/-- C8 amended: no start tag sets the pending-field marker to the user-date
field: the dispatch table's image omits `transUserDate` (the marker value and
the `UserDateTime` transaction field are dead code), so no character-data
event can ever populate a user-date. -/
theorem c8_userdate_amended :
    ∀ name : String, (armKey name).getD nextKey.none ∈ armableKeys := by
  intro name
  unfold armKey
  split <;> decide

/-- C9: There is an input token stream — a transaction-field start tag followed
by character data, before any transaction-start tag or after the current
transaction was flushed by an end-tag unwind — on which the parser dereferences
the nil current-transaction holder when storing the field (a runtime panic),
instead of returning an error or absorbing the irregularity. -/
theorem c9_nil_deref :
    Parse [.start "FITID", .chardata "X".toList] = .crash .nilDeref ∧
    Parse [.start "STMTTRN", .endEl "STMTTRN", .start "FITID", .chardata "Z".toList] =
      .crash .nilDeref := by decide

/-- C10: For every input token stream, Parse never assigns the statement's
generation timestamp, language code, or statement-period start/end date
fields: in every returned record these four fields equal their zero values. -/
theorem c10_frame :
    ∀ (toks : List Tok) (o : Ofx), Parse toks = .ok o →
      o.GeneratedDateTime = timeZero ∧ o.Language = "" ∧
      o.TransactionStartDateTime = timeZero ∧ o.TrnasactionEndDateTime = timeZero := by
  intro toks o h
  exact run_frame toks _ o h

/-- C10 witness: the empty stream returns the freshly initialized record,
whose four untouched fields are the zero values. -/
theorem c10_frame_witness :
    initOfx.GeneratedDateTime = timeZero ∧ initOfx.Language = "" ∧
    initOfx.TransactionStartDateTime = timeZero ∧
    initOfx.TrnasactionEndDateTime = timeZero :=
  c10_frame [] initOfx rfl

/-- C3: For every posted-date text whose first 8 characters are a valid
YYYYMMDD date, parsing that text followed by arbitrary trailing characters
yields the calendar date encoded by those 8 characters (the suffix is
ignored); for every posted-date text shorter than 8 characters, the parse
fails with a structural parse error. -/
theorem c3_dtposted :
    (∀ (s : PState) (tr : OfxTransaction) (txt : List Char) (D : Date),
        s.next = nextKey.transDatePosted → s.trans = some tr →
        parseYYYYMMDD (txt.take 8) = some D →
        stepChar txt s =
          .ok { s with trans := some { tr with PostedDateTime := D }, next := nextKey.none }) ∧
    (∀ (s : PState) (txt : List Char),
        s.next = nextKey.transDatePosted → txt.length < 8 →
        stepChar txt s = .err (.shortDate (String.mk (trimGo txt)))) := by
  constructor
  · intro s tr txt D hnext htr hD
    have hcond : (txt.take 8).length = 8 ∧ (txt.take 8).all Char.isDigit = true := by
      by_contra hc
      unfold parseYYYYMMDD at hD
      rw [if_neg hc] at hD
      exact Option.noConfusion hD
    have hlen8 : 8 ≤ txt.length := by
      have h1 := hcond.1
      rw [List.length_take] at h1
      omega
    have hnospace : ∀ c ∈ txt.take 8, isSpaceGo c = false := by
      intro c hc
      exact digit_not_space (List.all_eq_true.mp hcond.2 c hc)
    obtain ⟨hlen', htake'⟩ := trimGo_front txt 8 (by omega) hlen8 hnospace
    unfold stepChar
    rw [hnext]
    rw [if_neg (by omega)]
    rw [htake', hD, htr]
  · intro s txt hnext hlen
    have hlt : (trimGo txt).length < 8 := lt_of_le_of_lt (trimGo_length_le txt) hlen
    unfold stepChar
    rw [hnext]
    rw [if_pos hlt]

/-- C3 witness: `20200131XYZ` stores January 31 2020 ignoring the suffix;
`123` aborts with the short-date error. -/
theorem c3_dtposted_witness :
    stepChar "20200131XYZ".toList
        ⟨["DTPOSTED"], nextKey.transDatePosted, some {}, initOfx⟩ =
      .ok ⟨["DTPOSTED"], nextKey.none, some { PostedDateTime := ⟨2020, 1, 31⟩ }, initOfx⟩ ∧
    stepChar "123".toList ⟨["DTPOSTED"], nextKey.transDatePosted, some {}, initOfx⟩ =
      .err (.shortDate (String.mk (trimGo "123".toList))) :=
  ⟨c3_dtposted.1 ⟨["DTPOSTED"], nextKey.transDatePosted, some {}, initOfx⟩ {} _ ⟨2020, 1, 31⟩
      rfl rfl (by decide),
   c3_dtposted.2 ⟨["DTPOSTED"], nextKey.transDatePosted, some {}, initOfx⟩ _ rfl (by decide)⟩

/-- C4 counterexample: posted-date text of 8 characters that is not a valid
date is a second structural condition on which `Parse` returns an error (the
`time.Parse` failure is propagated), refuting "exactly one structural
condition — posted-date text shorter than 8 characters". -/
theorem c4_counterexample :
    Parse [.start "STMTTRN", .start "DTPOSTED", .chardata "ABCDEFGH".toList] =
      .err (.badDate "ABCDEFGH") ∧
    ¬ ("ABCDEFGH".toList.length < 8) := by decide

/-- C4 amended: `Parse` returns an error exactly from the armed posted-date
branch — either the short-text error or the invalid-8-character-date error —
and absorbs unknown tags, unmatched end-tags, extra character-data chunks and
malformed numeric amount text (best-effort-converted to a zero amount);
however, a transaction-field chunk with no open transaction aborts by runtime
panic rather than being absorbed. -/
theorem c4_errors_amended :
    (∀ (txt : List Char) (s : PState) (e : ParseError),
        stepChar txt s = .err e →
        s.next = nextKey.transDatePosted ∧
          (e = .shortDate (String.mk (trimGo txt)) ∨
           e = .badDate (String.mk ((trimGo txt).take 8)))) ∧
    Parse [.start "FOO", .chardata "hi".toList, .endEl "FOO"] = .ok initOfx ∧
    Parse [.endEl "BAR"] = .ok initOfx ∧
    Parse [.start "CURDEF", .chardata "AUD".toList, .chardata "USD".toList] =
      .ok { Currency := "AUD" } ∧
    NewDecial "abc".toList = 0 ∧
    Parse [.start "LEDGERBAL", .chardata "abc".toList] = .ok initOfx ∧
    Parse [.start "TRNAMT", .chardata "9".toList] = .crash .nilDeref := by
  refine ⟨?_, by decide, by decide, by decide, by decide, by decide, by decide⟩
  intro txt s e h
  unfold stepChar at h
  repeat' split at h
  all_goals try injection h
  all_goals exact ⟨by assumption, by simp_all⟩

/-- C4 witness: a concrete erroring chunk is in the posted-date branch. -/
theorem c4_errors_witness :
    (⟨["DTPOSTED"], nextKey.transDatePosted, none, initOfx⟩ : PState).next =
        nextKey.transDatePosted ∧
      (ParseError.shortDate "123" = .shortDate (String.mk (trimGo "123".toList)) ∨
       ParseError.shortDate "123" = .badDate (String.mk ((trimGo "123".toList).take 8))) :=
  c4_errors_amended.1 "123".toList ⟨["DTPOSTED"], nextKey.transDatePosted, none, initOfx⟩
    (.shortDate "123") (by decide)

/-! ### Binary64 rounding lemmas (for C2) -/

lemma roundHalfEven_intCast (n : ℤ) : roundHalfEven (n : ℚ) = n := by
  unfold roundHalfEven
  rw [Int.floor_intCast]
  norm_num

lemma roundHalfEven_eq_of_abs_lt {q : ℚ} {n : ℤ} (h : |q - n| < 1/2) : roundHalfEven q = n := by
  rw [abs_lt] at h
  obtain ⟨h1, h2⟩ := h
  unfold roundHalfEven
  by_cases hq : (n : ℚ) ≤ q
  · have hf : ⌊q⌋ = n := by
      rw [Int.floor_eq_iff]
      exact ⟨hq, by linarith⟩
    rw [hf]
    rw [if_pos (by linarith)]
  · push_neg at hq
    have hf : ⌊q⌋ = n - 1 := by
      rw [Int.floor_eq_iff]
      constructor
      · push_cast; linarith
      · push_cast; linarith
    rw [hf]
    rw [if_neg (by push_cast; linarith)]
    rw [if_pos (by push_cast; linarith)]
    omega

lemma abs_roundHalfEven_sub_le (q : ℚ) : |(roundHalfEven q : ℚ) - q| ≤ 1/2 := by
  have h0 : (⌊q⌋ : ℚ) ≤ q := Int.floor_le q
  have h1 : q < ⌊q⌋ + 1 := Int.lt_floor_add_one q
  unfold roundHalfEven
  split
  · rw [abs_le]
    constructor <;> [linarith; linarith]
  · split
    · rw [abs_le]
      push_cast
      constructor <;> [linarith; linarith]
    · split
      · rw [abs_le]
        constructor <;> [linarith; linarith]
      · rw [abs_le]
        push_cast
        constructor <;> [linarith; linarith]

lemma expOfAux_le (f : ℕ) (a : ℚ) : ∀ (e B : ℤ), e - B ≤ f →
    (∀ e', B < e' → e' ≤ e → ¬ (2:ℚ)^e' ≤ a) → expOfAux f a e ≤ B := by
  induction f with
  | zero =>
      intro e B hf _
      unfold expOfAux
      omega
  | succ f ih =>
      intro e B hf hno
      unfold expOfAux
      split
      · rename_i hle
        by_contra hBe
        push_neg at hBe
        exact hno e hBe le_rfl hle
      · exact ih (e - 1) B (by omega) (fun e' hb hu => hno e' hb (by omega))

lemma expOfAux_eq (a : ℚ) (e : ℤ) (h1 : (2:ℚ)^e ≤ a)
    (h2 : ∀ e', e < e' → ¬ (2:ℚ)^e' ≤ a) :
    ∀ (f : ℕ) (s : ℤ), e ≤ s → s - e ≤ f → expOfAux f a s = e := by
  intro f
  induction f with
  | zero =>
      intro s hse hf
      unfold expOfAux
      omega
  | succ f ih =>
      intro s hse hf
      unfold expOfAux
      split
      · rename_i hle
        have hnlt : ¬ e < s := fun hlt => h2 s hlt hle
        omega
      · rename_i hnle
        apply ih
        · have hne : e ≠ s := fun heq => hnle (heq ▸ h1)
          omega
        · omega

lemma expOf_le_of_lt {a : ℚ} {B : ℤ} (hB : B ≤ 60) (hB2 : -340 ≤ B) (h : a < 2^(B + 1)) :
    expOf a ≤ B := by
  unfold expOf
  apply expOfAux_le 400 a 60 B (by omega)
  intro e' h1 h2 hle
  have hmono : (2:ℚ)^(B + 1) ≤ 2^e' := zpow_le_zpow_right₀ (by norm_num) (by omega)
  linarith

lemma expOf_eq {a : ℚ} {e : ℤ} (h1 : (2:ℚ)^e ≤ a) (h2 : a < 2^(e + 1))
    (hle : e ≤ 60) (hge : -340 ≤ e) : expOf a = e := by
  unfold expOf
  apply expOfAux_eq a e h1 _ 400 60 hle (by omega)
  intro e' hlt hle'
  have hmono : (2:ℚ)^(e + 1) ≤ 2^e' := zpow_le_zpow_right₀ (by norm_num) (by omega)
  linarith

lemma roundDouble_abs_sub_le {x : ℚ} {E : ℤ} (hx : x ≠ 0) (hE : expOf |x| ≤ E) :
    |roundDouble x - x| ≤ 2^(E - 53) := by
  unfold roundDouble
  rw [if_neg hx]
  set ax := |x| with hax
  set e := expOf ax with he
  set s : ℚ := 2^(e - 52) with hs
  have hs0 : 0 < s := by rw [hs]; exact zpow_pos (by norm_num) _
  have hmain : |((roundHalfEven (ax / s) : ℤ) : ℚ) * s - ax| ≤ s / 2 := by
    have h1 := abs_roundHalfEven_sub_le (ax / s)
    have heq : ((roundHalfEven (ax / s) : ℤ) : ℚ) * s - ax =
        (((roundHalfEven (ax / s) : ℤ) : ℚ) - ax / s) * s := by
      field_simp
    rw [heq, abs_mul, abs_of_pos hs0]
    calc |((roundHalfEven (ax / s) : ℤ) : ℚ) - ax / s| * s ≤ (1/2) * s :=
          mul_le_mul_of_nonneg_right h1 (le_of_lt hs0)
      _ = s / 2 := by ring
  have hsign : (if x < 0 then (-1:ℚ) else 1) * ((roundHalfEven (ax / s) : ℤ) : ℚ) * s - x =
      (if x < 0 then (-1:ℚ) else 1) * (((roundHalfEven (ax / s) : ℤ) : ℚ) * s - ax) := by
    split
    · rename_i hneg
      rw [hax, abs_of_neg hneg]
      ring
    · rename_i hpos
      push_neg at hpos
      rw [hax, abs_of_nonneg hpos]
      ring
  rw [hsign, abs_mul]
  have habs1 : |(if x < 0 then (-1:ℚ) else 1)| = 1 := by split <;> norm_num
  rw [habs1, one_mul]
  have hstep : s / 2 = 2^(e - 53) := by
    have he53 : e - 52 = (e - 53) + 1 := by omega
    rw [hs, he53, zpow_add_one₀ (by norm_num : (2:ℚ) ≠ 0)]
    ring
  calc |((roundHalfEven (ax / s) : ℤ) : ℚ) * s - ax| ≤ s / 2 := hmain
    _ = 2^(e - 53) := hstep
    _ ≤ 2^(E - 53) := zpow_le_zpow_right₀ (by norm_num) (by omega)

lemma roundDouble_intCast_eq {k : ℤ} (he : expOf |(k : ℚ)| ≤ 52) : roundDouble (k : ℚ) = k := by
  by_cases hk : (k : ℚ) = 0
  · rw [hk]
    unfold roundDouble
    rw [if_pos rfl]
  · unfold roundDouble
    rw [if_neg hk]
    set e := expOf |(k : ℚ)| with he2
    have key : |(k : ℚ)| / 2^(e - 52) = ((|k| * 2^(52 - e).toNat : ℤ) : ℚ) := by
      rw [div_eq_iff (by positivity : ((2:ℚ)^(e - 52)) ≠ 0)]
      push_cast
      rw [← Int.cast_abs]
      rw [← zpow_natCast (2:ℚ) (52 - e).toNat, Int.toNat_of_nonneg (by omega)]
      rw [mul_assoc, ← zpow_add₀ (by norm_num : (2:ℚ) ≠ 0)]
      have hzero : 52 - e + (e - 52) = 0 := by omega
      rw [hzero]
      simp
    rw [key, roundHalfEven_intCast, ← key]
    rw [mul_assoc, div_mul_cancel₀ _ (by positivity : ((2:ℚ)^(e - 52)) ≠ 0)]
    split
    · rename_i hneg
      rw [abs_of_neg hneg]
      ring
    · rename_i hpos
      push_neg at hpos
      rw [abs_of_nonneg hpos]
      ring

lemma roundDouble_neg (x : ℚ) : roundDouble (-x) = -roundDouble x := by
  unfold roundDouble
  by_cases h0 : x = 0
  · subst h0
    norm_num
  · rw [if_neg (neg_ne_zero.mpr h0), if_neg h0, abs_neg]
    by_cases hpos : 0 < x
    · rw [if_pos (neg_lt_zero.mpr hpos), if_neg (not_lt.mpr (le_of_lt hpos))]
      ring
    · have hneg : x < 0 := lt_of_le_of_ne (not_lt.mp hpos) h0
      rw [if_neg (not_lt.mpr (le_of_lt (neg_pos.mpr hneg))), if_pos hneg]
      ring

lemma roundDouble_eval {x m : ℚ} {e n : ℤ} (hx0 : 0 < x) (hexp : expOf x = e)
    (hm : x / 2^(e - 52) = m) (hn : roundHalfEven m = n) :
    roundDouble x = n * 2^(e - 52) := by
  unfold roundDouble
  rw [if_neg (ne_of_gt hx0), abs_of_pos hx0, hexp, hm, hn,
    if_neg (not_lt.mpr (le_of_lt hx0)), one_mul]

lemma roundHalfEven_eval {q : ℚ} {fl : ℤ} (hfl : ⌊q⌋ = fl) (hlt : q - fl < 1/2) :
    roundHalfEven q = fl := by
  unfold roundHalfEven
  rw [hfl, if_pos hlt]

lemma roundHalfEven_eval_up {q : ℚ} {fl : ℤ} (hfl : ⌊q⌋ = fl)
    (h1 : ¬ (q - fl < 1/2)) (h2 : 1/2 < q - fl) : roundHalfEven q = fl + 1 := by
  unfold roundHalfEven
  rw [hfl, if_neg h1, if_pos h2]

lemma decimalString_exact {k : ℤ} (hk : |k| ≤ 2^45) : Decimal.String k = renderCents k := by
  by_cases hk0 : k = 0
  · subst hk0
    unfold Decimal.String fmtF2 renderCents
    rw [Int.cast_zero]
    have h1 : roundDouble 0 = 0 := by unfold roundDouble; rw [if_pos rfl]
    rw [h1, zero_div, h1, zero_mul]
    have h2 : roundHalfEven 0 = 0 := by
      have h3 := roundHalfEven_intCast 0
      rwa [Int.cast_zero] at h3
    rw [h2]
    norm_num
  · have hcast1 : ((|k| : ℤ) : ℚ) ≤ ((2^45 : ℤ) : ℚ) := by exact_mod_cast hk
    have hexp45 : expOf |(k : ℚ)| ≤ 45 := by
      apply expOf_le_of_lt (by norm_num) (by norm_num)
      rw [← Int.cast_abs]
      have h2 : ((2^45 : ℤ) : ℚ) < 2^(45 + 1 : ℤ) := by norm_num
      linarith
    have hrd1 : roundDouble (k : ℚ) = k := roundDouble_intCast_eq (le_trans hexp45 (by norm_num))
    have hne : ((k : ℚ)/100) ≠ 0 := by
      intro hz
      rw [div_eq_zero_iff] at hz
      rcases hz with hz | hz
      · exact hk0 (by exact_mod_cast hz)
      · norm_num at hz
    have hexp38 : expOf |(k : ℚ)/100| ≤ 38 := by
      apply expOf_le_of_lt (by norm_num) (by norm_num)
      rw [abs_div]
      have h100 : |(100 : ℚ)| = 100 := by norm_num
      rw [h100, ← Int.cast_abs]
      have h2 : (2 : ℚ)^(38 + 1 : ℤ) = 549755813888 := by norm_num
      have h4 : ((2^45 : ℤ) : ℚ) = 35184372088832 := by norm_num
      rw [h2]
      rw [div_lt_iff₀ (by norm_num : (0 : ℚ) < 100)]
      rw [h4] at hcast1
      linarith
    have herr : |roundDouble ((k : ℚ)/100) - (k : ℚ)/100| ≤ 2^((38 : ℤ) - 53) :=
      roundDouble_abs_sub_le hne hexp38
    set v := roundDouble ((k : ℚ)/100) with hv
    have hpow : (2 : ℚ)^((38 : ℤ) - 53) = 1/32768 := by norm_num
    rw [hpow] at herr
    have herr2 : |v * 100 - (k : ℚ)| < 1/2 := by
      have heq : v * 100 - (k : ℚ) = (v - (k : ℚ)/100) * 100 := by ring
      rw [heq, abs_mul]
      have h100 : |(100 : ℚ)| = 100 := by norm_num
      rw [h100]
      calc |v - (k : ℚ)/100| * 100 ≤ (1/32768) * 100 :=
            mul_le_mul_of_nonneg_right herr (by norm_num)
        _ < 1/2 := by norm_num
    have hn : roundHalfEven (v * 100) = k := roundHalfEven_eq_of_abs_lt herr2
    have habs2 := abs_le.mp herr
    have hsign : v < 0 ↔ k < 0 := by
      constructor
      · intro hv0
        by_contra hknn
        push_neg at hknn
        have hk1 : (1 : ℤ) ≤ k := by omega
        have hk1Q : (1 : ℚ) ≤ (k : ℚ) := by exact_mod_cast hk1
        have hq100 : (1 : ℚ)/100 ≤ (k : ℚ)/100 := by linarith
        linarith [habs2.1]
      · intro hkn
        have hk1 : k ≤ -1 := by omega
        have hk1Q : (k : ℚ) ≤ -1 := by exact_mod_cast hk1
        have hq100 : (k : ℚ)/100 ≤ -1/100 := by linarith
        linarith [habs2.2]
    unfold Decimal.String
    rw [hrd1, ← hv]
    unfold fmtF2 renderCents
    rw [hn]
    congr 1
    by_cases hkneg : k < 0
    · rw [if_pos hkneg, if_pos (hsign.mpr hkneg)]
    · rw [if_neg hkneg, if_neg (fun hvv => hkneg (hsign.mp hvv))]

lemma parse029 : parseGoFloat "0.29".toList = some (29/100 : ℚ) := by
  have h : parseGoFloat "0.29".toList =
      some ((1 : ℚ) * ((natOfDigits ['0'] : ℚ) +
        (natOfDigits ['2', '9'] : ℚ) / 10 ^ (['2', '9'] : List Char).length)) := rfl
  have h0 : natOfDigits ['0'] = 0 := rfl
  have h29 : natOfDigits ['2', '9'] = 29 := rfl
  rw [h, h0, h29]
  norm_num

lemma rd029 : roundDouble (29/100 : ℚ) = 5224175567749775 / 2^54 := by
  have hexp : expOf (29/100 : ℚ) = -2 :=
    expOf_eq (by norm_num) (by norm_num) (by norm_num) (by norm_num)
  have hm : (29/100 : ℚ) / 2^((-2 : ℤ) - 52) = 130604389193744384/25 := by norm_num
  have hfl : ⌊(130604389193744384/25 : ℚ)⌋ = 5224175567749775 := by
    rw [Int.floor_eq_iff]
    norm_num
  have hrhe : roundHalfEven (130604389193744384/25 : ℚ) = 5224175567749775 :=
    roundHalfEven_eval hfl (by norm_num)
  have h := roundDouble_eval (by norm_num) hexp hm hrhe
  rw [h]
  norm_num

lemma trunc029 : truncQ (roundDouble (roundDouble (29/100 : ℚ) * 100)) = 28 := by
  rw [rd029]
  have hx2 : (5224175567749775 / 2^54 : ℚ) * 100 = 130604389193744375/2^52 := by norm_num
  rw [hx2]
  have hexp : expOf (130604389193744375/2^52 : ℚ) = 4 :=
    expOf_eq (by norm_num) (by norm_num) (by norm_num) (by norm_num)
  have hm : (130604389193744375/2^52 : ℚ) / 2^((4 : ℤ) - 52) = 130604389193744375/16 := by
    norm_num
  have hfl : ⌊(130604389193744375/16 : ℚ)⌋ = 8162774324609023 := by
    rw [Int.floor_eq_iff]
    norm_num
  have hrhe : roundHalfEven (130604389193744375/16 : ℚ) = 8162774324609023 :=
    roundHalfEven_eval hfl (by norm_num)
  have h := roundDouble_eval (by norm_num) hexp hm hrhe
  rw [h]
  unfold truncQ
  rw [if_pos (by norm_num)]
  rw [Int.floor_eq_iff]
  norm_num

lemma nd029 : NewDecial "0.29".toList = 28 := by
  unfold NewDecial
  rw [parse029]
  exact trunc029

lemma parse425 : parseGoFloat "-42.5".toList = some (-85/2 : ℚ) := by
  have h : parseGoFloat "-42.5".toList =
      some ((-1 : ℚ) * ((natOfDigits ['4', '2'] : ℚ) +
        (natOfDigits ['5'] : ℚ) / 10 ^ (['5'] : List Char).length)) := rfl
  have h42 : natOfDigits ['4', '2'] = 42 := rfl
  have h5 : natOfDigits ['5'] = 5 := rfl
  rw [h, h42, h5]
  norm_num

lemma rd425 : roundDouble (85/2 : ℚ) = 85/2 := by
  have hexp : expOf (85/2 : ℚ) = 5 :=
    expOf_eq (by norm_num) (by norm_num) (by norm_num) (by norm_num)
  have hm : (85/2 : ℚ) / 2^((5 : ℤ) - 52) = 5981343255101440 := by norm_num
  have hfl : ⌊(5981343255101440 : ℚ)⌋ = 5981343255101440 := by
    rw [Int.floor_eq_iff]
    norm_num
  have hrhe : roundHalfEven (5981343255101440 : ℚ) = 5981343255101440 :=
    roundHalfEven_eval hfl (by norm_num)
  have h := roundDouble_eval (by norm_num) hexp hm hrhe
  rw [h]
  norm_num

lemma trunc425 : truncQ (roundDouble (roundDouble (-85/2 : ℚ) * 100)) = -4250 := by
  have hneg : (-85/2 : ℚ) = -(85/2) := by norm_num
  rw [hneg, roundDouble_neg, rd425]
  have hx2 : (-(85/2 : ℚ)) * 100 = -4250 := by norm_num
  rw [hx2]
  have hE : expOf |((-4250 : ℤ) : ℚ)| ≤ 52 := by
    have h1 : |((-4250 : ℤ) : ℚ)| = 4250 := by norm_num
    rw [h1]
    exact le_trans
      (@expOf_le_of_lt (4250 : ℚ) 12 (by norm_num) (by norm_num) (by norm_num))
      (by norm_num)
  have hint : roundDouble (-4250 : ℚ) = -4250 := by
    have h2 := roundDouble_intCast_eq hE
    norm_num at h2
    exact h2
  rw [hint]
  unfold truncQ
  rw [if_neg (by norm_num)]
  rw [show ((-4250 : ℚ)) = ((-4250 : ℤ) : ℚ) by norm_num]
  exact Int.ceil_intCast _

/-- C2 counterexample: `"0.29"` is a decimal string with 2 fractional digits
whose normalization is `"0.29"` (its value is 29/100, i.e. 29 hundredths), but
the Go pipeline parses it through float64 (nearest double to 0.29, times 100,
truncated toward zero) to 28 hundredths, which formats as `"0.28"`. -/
theorem c2_counterexample :
    parseGoFloat "0.29".toList = some (29/100 : ℚ) ∧
    (29 : ℚ) = 100 * (29/100 : ℚ) ∧
    renderCents 29 = "0.29" ∧
    NewDecial "0.29".toList = 28 ∧
    Decimal.String (NewDecial "0.29".toList) = "0.28" := by
  refine ⟨parse029, by norm_num, by decide, nd029, ?_⟩
  rw [nd029]
  rw [decimalString_exact (by decide)]
  decide

/-- C2 amended: for a decimal string `s` whose float64 parse-scale-truncate
pipeline is exact (`truncQ (roundDouble (roundDouble q * 100)) = k` with
`k = 100·q` the exact hundredths of `s`'s value) and whose magnitude stays
below 2^45 hundredths, formatting the parsed amount reproduces `s` normalized
to exactly two fractional digits with a leading sign if negative
(`renderCents k`); e.g. parsing `"-42.5"` formats as `"-42.50"`.  (The
counterexample shows the unconditional claim fails: `"0.29"` misses the
exactness condition because 0.29·100 falls below 29 in float64.) -/
theorem c2_roundtrip_amended :
    ∀ (s : List Char) (q : ℚ) (k : ℤ),
      parseGoFloat s = some q →
      truncQ (roundDouble (roundDouble q * 100)) = k →
      (k : ℚ) = 100 * q →
      |k| ≤ 2^45 →
      Decimal.String (NewDecial s) = renderCents k := by
  intro s q k hp ht hexact hbound
  have hnd : NewDecial s = k := by
    unfold NewDecial
    rw [hp]
    exact ht
  rw [hnd]
  exact decimalString_exact hbound

/-- C2 witness: the round trip at `"-42.5"`, whose value is exactly -4250
hundredths, gives `"-42.50"`. -/
theorem c2_roundtrip_witness :
    Decimal.String (NewDecial "-42.5".toList) = renderCents (-4250) ∧
    renderCents (-4250) = "-42.50" :=
  ⟨c2_roundtrip_amended "-42.5".toList (-85/2 : ℚ) (-4250) parse425 trunc425
      (by norm_num) (by decide),
   by decide⟩
